import Mathlib

/-!
Shallow embedding of the firmware store of OS-X-BrcmPatchRAM-Catalina
(src/BrcmPatchRAM/BrcmFirmwareStore.cpp): the Intel-HEX firmware parser
(BrcmFirmwareStore::parseFirmware and its helpers validHexChar, hex_nibble,
check_sum) and the magic-detection branch of
BrcmFirmwareStore::decompressFirmware.

Bytes are modelled as Nat values below 256; byte buffers as List Nat.
The C code walks a raw pointer with no bound derived from the buffer
length, so a read past the end of the input is undefined behaviour; the
embedding makes every such access explicit as the distinguished error
ParseError.outOfBounds.  Likewise the line buffer UInt8 binary[0x110] is
written without any capacity check; a write at offset ≥ 0x110 would smash
the stack, and the embedding reports it as ParseError.bufferOverflow.
-/

/-- Record-parse outcomes.  The first four mirror the failure exits of
BrcmFirmwareStore::parseFirmware (which all surface as a NULL result in C);
outOfBounds marks a read past the end of the input buffer (the C code never
checks the input length, so such a read is undefined behaviour), and
bufferOverflow marks a write past the 0x110-byte line buffer (unchecked
stack-buffer overflow in C). -/
inductive ParseError
  | invalidFormat
  | checksumMismatch
  | unsupportedRecordType
  | unknownRecordType
  | outOfBounds
  | bufferOverflow
deriving DecidableEq, Repr

/-- Embeds validHexChar (BrcmFirmwareStore.cpp:150): ASCII a-f, A-F, 0-9. -/
def validHexChar (hex : Nat) : Bool :=
  (97 ≤ hex && hex ≤ 102) || (65 ≤ hex && hex ≤ 70) || (48 ≤ hex && hex ≤ 57)

/-- Embeds hex_nibble (BrcmFirmwareStore.cpp:158).  output is a UInt8, so
the left shift wraps modulo 256.  The C code tests hex ≥ ′a′ and hex ≥ ′A′
in sequence (the first if has no else), which is mirrored here.  In the
digit branch the C computes (hex - ′0′) & 0x0F on int, which equals
hex % 16 for every byte value because 48 ≡ 0 (mod 16) (this also covers a
non-hex second character of a pair, which the C consumes unchecked). -/
def hex_nibble (hex output : Nat) : Nat :=
  let o1 := (output <<< 4) % 256
  let o2 := if 97 ≤ hex then o1 ||| ((10 + (hex - 97)) % 16) else o1
  if 65 ≤ hex then o2 ||| ((10 + (hex - 65)) % 16) else o2 ||| (hex % 16)

/-- Embeds check_sum (BrcmFirmwareStore.cpp:173): sum the first len bytes
into a UInt32 accumulator, then return (~crc + 1) & 0xFF, i.e. the two's
complement of the sum truncated to 8 bits. -/
def check_sum (data : List Nat) (len : Nat) : Nat :=
  let crc := (data.take len).sum % 4294967296
  ((4294967296 - crc) % 4294967296) % 256

/-- Embeds the inner hex-pair loop of parseFirmware
(BrcmFirmwareStore.cpp:210-214): while the current character is a valid hex
character, fold it and the following character (consumed unchecked) into
binary[offset], then advance offset.  The write to binary[offset] happens
before the second character is read, hence the capacity check precedes the
end-of-input check; in the singleton case the loop would write binary[offset]
(overflow when offset ≥ 0x110) and then read the missing second character
out of bounds, so that case reports bufferOverflow when the write is already
out of bounds and outOfBounds otherwise.  Returns the updated buffer, the
final offset and the unconsumed rest of the input. -/
def decodeHex : List Nat → Nat → List Nat → Except ParseError (List Nat × Nat × List Nat)
  | _, _, [] => .error .outOfBounds
  | bin, off, [c] =>
    if validHexChar c then
      if off < 272 then .error .outOfBounds else .error .bufferOverflow
    else .ok (bin, off, [c])
  | bin, off, c :: c2 :: rest2 =>
    if validHexChar c then
      if off < 272 then
        decodeHex (bin.set off (hex_nibble c2 (hex_nibble c (bin.getD off 0)))) (off + 1) rest2
      else .error .bufferOverflow
    else .ok (bin, off, c :: c2 :: rest2)

/-- Embeds the trailing-whitespace loop of parseFirmware
(BrcmFirmwareStore.cpp:285-286): advance while the current character is
neither a valid hex character nor the line marker ′:′ (58). -/
def skipWs : List Nat → Except ParseError (List Nat)
  | [] => .error .outOfBounds
  | c :: rest => if !validHexChar c && c != 58 then skipWs rest else .ok (c :: rest)

/-- Little-endian byte image of a 32-bit address, as produced by
appendBytes(&address, sizeof(address)) on the little-endian target. -/
def addrLE4 (a : Nat) : List Nat :=
  [a % 256, a / 256 % 256, a / 65536 % 256, a / 16777216 % 256]

/-- Outcome of one iteration of the record loop: either the EndOfFile
record was reached (the successful return), or parsing continues with the
updated running address, an optional instruction to append (present exactly
for Data records), and the remaining input. -/
inductive StepOut
  | eof
  | cont (address : Nat) (instr : Option (List Nat)) (rest : List Nat)
deriving DecidableEq, Repr

/-- Embeds one iteration of the record loop of parseFirmware
(BrcmFirmwareStore.cpp:202-287), from just after the ′:′ has been consumed:
zero the 0x110-byte line buffer, decode the hex pairs, extract length,
load offset (big-endian), record type and the checksum byte at offset
4 + length, verify the checksum, and dispatch on the record type.

In the Data case the C code grows the UInt8 length by 4 (wrapping modulo
256) and then appends opcode 0x4c 0xfc, the length byte, the four
little-endian address bytes and appendBytes(&binary[4], length - 4).
When the wrapped length byte is below 4, the count length - 4 underflows
to a value near 2^32 and OSData::appendBytes rejects it via its
add-overflow check, appending nothing; Nat truncated subtraction in
take (lengthByte - 4) models exactly that. -/
def lineStep (address : Nat) (input : List Nat) : Except ParseError StepOut :=
  match decodeHex (List.replicate 272 0) 0 input with
  | .error e => .error e
  | .ok (bin, _off, rest) =>
    let length := bin.getD 0 0
    let addr := (bin.getD 1 0) <<< 8 ||| bin.getD 2 0
    let record_type := bin.getD 3 0
    let checksum := bin.getD (4 + length) 0
    let calc_checksum := check_sum bin (4 + length)
    if checksum ≠ calc_checksum then .error .checksumMismatch
    else
      match record_type with
      | 0 =>
        let address' := address &&& 4294901760 ||| addr
        let lengthByte := (length + 4) % 256
        let instr := 76 :: 252 :: lengthByte ::
          (addrLE4 address' ++ (bin.drop 4).take (lengthByte - 4))
        match skipWs rest with
        | .error e => .error e
        | .ok rest2 => .ok (.cont address' (some instr) rest2)
      | 1 => .ok .eof
      | 2 =>
        let address' := ((bin.getD 4 0) <<< 8 ||| bin.getD 5 0) <<< 4
        match skipWs rest with
        | .error e => .error e
        | .ok rest2 => .ok (.cont address' none rest2)
      | 3 => .error .unsupportedRecordType
      | 4 =>
        let address' := (bin.getD 4 0) <<< 24 ||| (bin.getD 5 0) <<< 16
        match skipWs rest with
        | .error e => .error e
        | .ok rest2 => .ok (.cont address' none rest2)
      | 5 => .error .unsupportedRecordType
      | _ => .error .unknownRecordType

/-- Embeds the record loop of parseFirmware (BrcmFirmwareStore.cpp:196-293):
at each line the current character must be ′:′ (58) or the function exits
with the invalid-format failure; otherwise the line is parsed and any
produced instruction is appended to the accumulator.  The fuel argument is
an artifact of the embedding: every iteration consumes at least the ′:′
character, so fuel equal to the input length never runs out (see
parseLoopF_fuel); exhausted fuel returns the same outOfBounds marker as the
end-of-input read it would correspond to. -/
def parseLoopF : Nat → Nat → List (List Nat) → List Nat → Except ParseError (List (List Nat))
  | 0, _, _, _ => .error .outOfBounds
  | _ + 1, _, _, [] => .error .outOfBounds
  | fuel + 1, address, acc, c :: rest =>
    if c = 58 then
      match lineStep address rest with
      | .error e => .error e
      | .ok .eof => .ok acc
      | .ok (.cont a i r) => parseLoopF fuel a (acc ++ i.toList) r
    else .error .invalidFormat

/-- Embeds BrcmFirmwareStore::parseFirmware (BrcmFirmwareStore.cpp:183).
The C entry check *data != ′:′ and the loop condition coincide with the
first iteration of parseLoopF; the running address starts at 0 and the
instruction list starts empty.  An empty input makes the very first *data
read out of bounds. -/
def parseFirmware (input : List Nat) : Except ParseError (List (List Nat)) :=
  parseLoopF input.length 0 [] input

/-- Embeds the magic detection of BrcmFirmwareStore::decompressFirmware
(BrcmFirmwareStore.cpp:88-97): the first two bytes are read as a 16-bit
little-endian value; if it is none of the three zlib magics the input is
returned as-is (the C code takes a second reference to the same OSData).
The inflating branch calls zlib, which is outside this repository, so it is
a parameter of the embedding. -/
def decompressFirmware (inflate : List Nat → Option (List Nat))
    (firmware : List Nat) : Option (List Nat) :=
  let magic := firmware.getD 0 0 ||| (firmware.getD 1 0) <<< 8
  if magic ≠ 376 ∧ magic ≠ 40056 ∧ magic ≠ 55928 then some firmware
  else inflate firmware

/-! Encoding of Intel-HEX lines, used to state the claims about whole
record streams.  These definitions follow the Intel-HEX format as described
by the specification: a record is a length byte, a big-endian 16-bit load
offset, a type byte, the payload and a two's-complement checksum byte, and
a line is ′:′ followed by the uppercase hex image of the record bytes and a
newline. -/

/-- Uppercase hexadecimal digit of a value below 16. -/
def hexDigit (n : Nat) : Nat := if n < 10 then 48 + n else 55 + n

/-- Two-character hex image of a byte. -/
def hexByte (b : Nat) : List Nat := [hexDigit (b / 16), hexDigit (b % 16)]

/-- Hex image of a byte sequence. -/
def hexEnc (bytes : List Nat) : List Nat := (bytes.map hexByte).flatten

/-- Two's-complement checksum byte completing a record body. -/
def chkByte (body : List Nat) : Nat := (256 - body.sum % 256) % 256

/-- Record body: length byte, big-endian load offset, type byte, payload. -/
def recBody (ty off : Nat) (p : List Nat) : List Nat :=
  p.length :: off / 256 :: off % 256 :: ty :: p

/-- Full record bytes: body followed by its valid checksum byte. -/
def genRec (ty off : Nat) (p : List Nat) : List Nat :=
  recBody ty off p ++ [chkByte (recBody ty off p)]

/-- One text line: ′:′, the hex image of the record bytes, a newline. -/
def encodeLine (bytes : List Nat) : List Nat := 58 :: hexEnc bytes ++ [10]

/-- A Data record of the input image: a 16-bit load offset and a payload. -/
structure DataRec where
  off : Nat
  payload : List Nat
deriving DecidableEq, Repr

/-- Well-formedness of a Data record: the offset fits in 16 bits, the
payload fits the one-byte length field, and payload entries are bytes. -/
def WFrec (r : DataRec) : Prop :=
  r.off < 65536 ∧ r.payload.length ≤ 255 ∧ ∀ b ∈ r.payload, b < 256

instance (r : DataRec) : Decidable (WFrec r) := by unfold WFrec; infer_instance

/-- Record bytes of a well-formed Data record (type 0). -/
def recBytes (r : DataRec) : List Nat := genRec 0 r.off r.payload

/-- The EndOfFile record: length 0, offset 0, type 1, checksum 0xFF. -/
def eofBytes : List Nat := genRec 1 0 []

/-- Input image made of Data-record lines followed by an EndOfFile line. -/
def encInput (recs : List DataRec) : List Nat :=
  (recs.map fun r => encodeLine (recBytes r)).flatten ++ encodeLine eofBytes

/-- Effective load address of a Data record: the high 16 bits of the
running address merged with the record offset (0xFFFF0000 = 4294901760). -/
def effAddr (a : Nat) (r : DataRec) : Nat := a &&& 4294901760 ||| r.off

/-- Instruction produced for a Data record at effective address a: opcode
0x4c 0xfc, the wrapped length byte, the little-endian address and the
payload bytes actually appended (all of them when the length byte did not
wrap below 4). -/
def dataInstr (a : Nat) (r : DataRec) : List Nat :=
  let lengthByte := (r.payload.length + 4) % 256
  76 :: 252 :: lengthByte :: (addrLE4 a ++ r.payload.take (lengthByte - 4))

/-- Instruction list produced for a sequence of Data records starting from
running address a. -/
def runInstrs (a : Nat) : List DataRec → List (List Nat)
  | [] => []
  | r :: rs => dataInstr (effAddr a r) r :: runInstrs (effAddr a r) rs

/-- Number of iterations of the hex-pair loop on a given input: the loop
body runs once per leading valid hex character at even distance, consuming
two characters (the second unchecked). -/
def hexPairs : List Nat → Nat
  | [] => 0
  | [c] => if validHexChar c then 1 else 0
  | c :: _ :: rest => if validHexChar c then hexPairs rest + 1 else 0

/-- Successful termination of the record loop is only ever reached through
an EndOfFile record: the loop either parses the EndOfFile line at the
current position, or parses a line and reaches EndOfFile later. -/
inductive EofReachable : Nat → List Nat → Prop
  | here {a rest} : lineStep a rest = .ok .eof → EofReachable a (58 :: rest)
  | there {a a' i rest r} : lineStep a rest = .ok (.cont a' i r) →
      EofReachable a' r → EofReachable a (58 :: rest)

/-! Arithmetic helpers. -/

/-- Disjoint or for an aligned nibble: for values below 16 the or with a
16-multiple is addition. -/
theorem or16 : ∀ w < 16, ∀ h < 16, 16 * w ||| h = 16 * w + h := by decide

/-- Or of a shifted value with a strictly smaller remainder is addition. -/
theorem lor_pow_add : ∀ (n a b : Nat), b < 2 ^ n → 2 ^ n * a ||| b = 2 ^ n * a + b := by
  intro n
  induction n with
  | zero =>
    intro a b hb
    interval_cases b
    simp
  | succ n ih =>
    intro a b hb
    have hb2 : b.div2 < 2 ^ n := by
      rw [Nat.div2_val]
      omega
    have h1 : 2 ^ (n + 1) * a = Nat.bit false (2 ^ n * a) := by
      simp [Nat.bit, Nat.pow_succ]
      ring
    have h2 : b = Nat.bit b.bodd b.div2 := (Nat.bit_decomp b).symm
    rw [h1, h2, Nat.lor_bit, ih a b.div2 hb2]
    have hm : (Nat.bit b.bodd b.div2) % 2 = b.bodd.toNat := Nat.bit_mod_two _ _
    rw [← h2] at hm
    simp [Nat.bit_val, Nat.div2_val, Nat.pow_succ]
    omega

/-- Decoding the two hex digits of a byte into the line buffer yields the
byte back, whatever the previous buffer content was. -/
theorem hex_nibble_pair (v b : Nat) (hb : b < 256) :
    hex_nibble (hexDigit (b % 16)) (hex_nibble (hexDigit (b / 16)) v) = b := by
  have hhi : b / 16 < 16 := by omega
  have hlo : b % 16 < 16 := by omega
  have step1 : hex_nibble (hexDigit (b / 16)) v = 16 * (v % 16) + b / 16 := by
    unfold hex_nibble hexDigit
    have hv : v <<< 4 % 256 = 16 * (v % 16) := by
      rw [Nat.shiftLeft_eq]
      omega
    split
    · -- b / 16 < 10, digit is 48 + b / 16
      have h1 : ¬ 97 ≤ 48 + b / 16 := by omega
      have h2 : ¬ 65 ≤ 48 + b / 16 := by omega
      simp only [hv, h1, h2, if_false]
      rw [show (48 + b / 16) % 16 = b / 16 by omega]
      exact or16 (v % 16) (by omega) (b / 16) hhi
    · -- 10 ≤ b / 16, digit is 55 + b / 16, in the A..F range
      have h1 : ¬ 97 ≤ 55 + b / 16 := by omega
      have h2 : 65 ≤ 55 + b / 16 := by omega
      simp only [hv, h1, h2, if_false, if_true]
      rw [show (10 + (55 + b / 16 - 65)) % 16 = b / 16 by omega]
      exact or16 (v % 16) (by omega) (b / 16) hhi
  rw [step1]
  unfold hex_nibble hexDigit
  have hv : (16 * (v % 16) + b / 16) <<< 4 % 256 = 16 * (b / 16) := by
    rw [Nat.shiftLeft_eq]
    omega
  split
  · have h1 : ¬ 97 ≤ 48 + b % 16 := by omega
    have h2 : ¬ 65 ≤ 48 + b % 16 := by omega
    simp only [hv, h1, h2, if_false]
    rw [show (48 + b % 16) % 16 = b % 16 by omega]
    rw [or16 (b / 16) hhi (b % 16) hlo]
    omega
  · have h1 : ¬ 97 ≤ 55 + b % 16 := by omega
    have h2 : 65 ≤ 55 + b % 16 := by omega
    simp only [hv, h1, h2, if_false, if_true]
    rw [show (10 + (55 + b % 16 - 65)) % 16 = b % 16 by omega]
    rw [or16 (b / 16) hhi (b % 16) hlo]
    omega

/-- Hex digits of a byte are valid hex characters. -/
theorem validHexChar_hexDigit (n : Nat) (h : n < 16) : validHexChar (hexDigit n) = true := by
  unfold validHexChar hexDigit
  split <;> simp <;> omega

/-! Consumption bounds of the loops, used for fuel accounting. -/

/-- Auxiliary strong-induction form of decodeHex_rest_le. -/
theorem decodeHex_rest_le_aux : ∀ (n : Nat) (l : List Nat), l.length ≤ n → ∀ bin off b o r,
    decodeHex bin off l = .ok (b, o, r) → r.length ≤ l.length := by
  intro n
  induction n with
  | zero =>
    intro l hl bin off b o r h
    match l, hl with
    | [], _ => simp [decodeHex] at h
  | succ n ih =>
    intro l hl bin off b o r h
    match l with
    | [] => simp [decodeHex] at h
    | [c] =>
      unfold decodeHex at h
      split at h
      · split at h <;> simp at h
      · cases h
        simp
    | c :: c2 :: rest2 =>
      unfold decodeHex at h
      split at h
      · split at h
        · have hl2 : rest2.length ≤ n := by simp at hl; omega
          have hr := ih rest2 hl2 _ _ _ _ _ h
          simp at hr ⊢
          omega
        · simp at h
      · cases h
        simp

/-- The hex-pair loop only ever hands back a suffix of its input. -/
theorem decodeHex_rest_le (bin : List Nat) (off : Nat) (l : List Nat) (b : List Nat)
    (o : Nat) (r : List Nat) (h : decodeHex bin off l = .ok (b, o, r)) :
    r.length ≤ l.length :=
  decodeHex_rest_le_aux l.length l (Nat.le_refl _) bin off b o r h

/-- The whitespace-skipping loop only ever hands back a suffix. -/
theorem skipWs_rest_le (l : List Nat) : ∀ r, skipWs l = .ok r → r.length ≤ l.length := by
  induction l with
  | nil => intro r h; simp [skipWs] at h
  | cons c rest ih =>
    intro r h
    unfold skipWs at h
    by_cases hc : (!validHexChar c && c != 58) = true
    · simp only [hc, if_true] at h
      have := ih _ h
      simp
      omega
    · simp only [hc, if_false] at h
      cases h
      simp

/-! Decoding an encoded hex line reproduces the record bytes in the front
of the zero-initialised line buffer. -/

/-- The 0x110-byte line buffer with its first bytes overwritten. -/
def linePad (bytes : List Nat) : List Nat :=
  bytes ++ List.replicate (272 - bytes.length) 0

/-- Writing at the frontier of the overwritten region extends it. -/
theorem set_padded (done : List Nat) (b : Nat) (k : Nat) (hk : 1 ≤ k) :
    (done ++ List.replicate k 0).set done.length b
      = (done ++ [b]) ++ List.replicate (k - 1) 0 := by
  rw [List.set_append]
  simp only [Nat.lt_irrefl, if_false, Nat.sub_self]
  match k, hk with
  | k + 1, _ =>
    simp [List.replicate_succ]

/-- Running the hex-pair loop over the encoding of a byte sequence, starting
at the frontier of the already-decoded region, writes exactly those bytes
and stops at the first non-hex character. -/
theorem decodeHex_enc : ∀ (bytes done : List Nat) (t : Nat) (ts : List Nat),
    (∀ b ∈ bytes, b < 256) → done.length + bytes.length ≤ 272 →
    validHexChar t = false →
    decodeHex (done ++ List.replicate (272 - done.length) 0) done.length
        (hexEnc bytes ++ t :: ts)
      = .ok (done ++ bytes ++ List.replicate (272 - done.length - bytes.length) 0,
             done.length + bytes.length, t :: ts) := by
  intro bytes
  induction bytes with
  | nil =>
    intro done t ts _ hlen ht
    simp only [hexEnc, List.map_nil, List.flatten_nil, List.nil_append, List.append_nil,
      Nat.add_zero, Nat.sub_zero]
    cases ts with
    | nil =>
      unfold decodeHex
      simp [ht]
    | cons t2 ts2 =>
      unfold decodeHex
      simp [ht]
  | cons b bs ih =>
    intro done t ts hb hlen ht
    have hb256 : b < 256 := hb b (by simp)
    have hbs : ∀ x ∈ bs, x < 256 := fun x hx => hb x (by simp [hx])
    simp only [List.length_cons] at hlen
    have hdl : done.length < 272 := by omega
    rw [show hexEnc (b :: bs) ++ t :: ts
          = hexDigit (b / 16) :: hexDigit (b % 16) :: (hexEnc bs ++ t :: ts) by
        simp [hexEnc, hexByte]]
    unfold decodeHex
    rw [validHexChar_hexDigit (b / 16) (by omega)]
    simp only [if_true, hdl]
    rw [hex_nibble_pair _ b hb256]
    rw [set_padded done b _ (by omega)]
    have := ih (done ++ [b]) t ts hbs (by simp; omega) ht
    simp only [List.length_append, List.length_cons, List.length_nil] at this
    rw [show 272 - done.length - 1 = 272 - (done.length + (0 + 1)) by omega]
    rw [this]
    simp [List.append_assoc]
    omega

/-- Decoding a full encoded line from the freshly zeroed buffer. -/
theorem decodeHex_line (bytes : List Nat) (t : Nat) (ts : List Nat)
    (hb : ∀ b ∈ bytes, b < 256) (hlen : bytes.length ≤ 272)
    (ht : validHexChar t = false) :
    decodeHex (List.replicate 272 0) 0 (hexEnc bytes ++ t :: ts)
      = .ok (linePad bytes, bytes.length, t :: ts) := by
  have h := decodeHex_enc bytes [] t ts hb (by simp only [List.length_nil]; omega) ht
  simp only [List.length_nil, List.nil_append, Nat.zero_add, Nat.sub_zero] at h
  rw [linePad]
  exact h

/-- Length of a record byte sequence. -/
theorem genRec_length (ty off : Nat) (p : List Nat) :
    (genRec ty off p).length = p.length + 5 := by
  simp only [genRec, recBody, List.length_append, List.length_cons, List.length_nil]

/-- The padded line buffer of a record splits as body, checksum, zero fill. -/
theorem linePad_split (ty off : Nat) (p : List Nat) :
    linePad (genRec ty off p)
      = recBody ty off p ++
          chkByte (recBody ty off p) :: List.replicate (272 - (p.length + 5)) 0 := by
  rw [linePad, genRec_length, genRec, List.append_assoc]
  rfl

/-- Cons-normal form of the padded buffer of a record line. -/
theorem linePad_genRec (ty off : Nat) (p : List Nat) :
    linePad (genRec ty off p)
      = p.length :: off / 256 :: off % 256 :: ty ::
          (p ++ chkByte (recBody ty off p) :: List.replicate (272 - (p.length + 5)) 0) := by
  rw [linePad_split, recBody]
  simp [List.cons_append]

/-- The checksum byte stored in the buffer sits right after the payload. -/
theorem linePad_genRec_checksum (ty off : Nat) (p : List Nat) :
    (linePad (genRec ty off p)).getD (4 + p.length) 0
      = chkByte (recBody ty off p) := by
  rw [linePad_split]
  rw [List.getD_append_right _ _ _ _
    (by simp only [recBody, List.length_cons]; omega)]
  simp only [recBody, List.length_cons]
  rw [show 4 + p.length - (p.length + 1 + 1 + 1 + 1) = 0 by omega]
  rfl

/-- Computed checksum of a stored record equals its checksum byte. -/
theorem check_sum_genRec (ty off : Nat) (p : List Nat) :
    check_sum (linePad (genRec ty off p)) (4 + p.length) = chkByte (recBody ty off p) := by
  have htake : (linePad (genRec ty off p)).take (4 + p.length) = recBody ty off p := by
    have hlen : (recBody ty off p).length = 4 + p.length := by
      simp only [recBody, List.length_cons]
      omega
    rw [linePad_split, ← hlen, List.take_left]
  simp only [check_sum, chkByte, htake]
  omega

/-! Reading the decoded record fields back out of the line buffer. -/

/-- Length byte of a stored record. -/
theorem linePad_getD0 (ty off : Nat) (p : List Nat) :
    (linePad (genRec ty off p)).getD 0 0 = p.length := by
  rw [linePad_genRec]
  rfl

/-- High offset byte of a stored record. -/
theorem linePad_getD1 (ty off : Nat) (p : List Nat) :
    (linePad (genRec ty off p)).getD 1 0 = off / 256 := by
  rw [linePad_genRec]
  rfl

/-- Low offset byte of a stored record. -/
theorem linePad_getD2 (ty off : Nat) (p : List Nat) :
    (linePad (genRec ty off p)).getD 2 0 = off % 256 := by
  rw [linePad_genRec]
  rfl

/-- Type byte of a stored record. -/
theorem linePad_getD3 (ty off : Nat) (p : List Nat) :
    (linePad (genRec ty off p)).getD 3 0 = ty := by
  rw [linePad_genRec]
  rfl

/-- Payload region of a stored record. -/
theorem linePad_drop4 (ty off : Nat) (p : List Nat) :
    (linePad (genRec ty off p)).drop 4
      = p ++ chkByte (recBody ty off p) :: List.replicate (272 - (p.length + 5)) 0 := by
  rw [linePad_genRec]
  rfl

/-- Every byte of a well-formed record is below 256. -/
theorem genRec_bytes_lt (ty off : Nat) (p : List Nat) (hty : ty < 256) (hoff : off < 65536)
    (hL : p.length ≤ 255) (hp : ∀ b ∈ p, b < 256) : ∀ b ∈ genRec ty off p, b < 256 := by
  intro b hb
  simp only [genRec, recBody, List.mem_append, List.mem_cons, List.mem_singleton,
    List.not_mem_nil, or_false] at hb
  rcases hb with hb | hb
  · rcases hb with hb | hb | hb | hb | hb
    · omega
    · omega
    · omega
    · omega
    · exact hp b hb
  · rw [hb]
    unfold chkByte
    omega

/-- Big-endian reassembly of the offset bytes gives the offset back. -/
theorem addr_decode (off : Nat) : (off / 256) <<< 8 ||| off % 256 = off := by
  have h : (2 : Nat) ^ 8 * (off / 256) ||| off % 256 = 2 ^ 8 * (off / 256) + off % 256 :=
    lor_pow_add 8 (off / 256) (off % 256) (by norm_num; omega)
  rw [Nat.shiftLeft_eq, Nat.mul_comm, h]
  have h8 : (2 : Nat) ^ 8 = 256 := by norm_num
  rw [h8]
  omega

/-- After a newline the skip loop stops at the next line marker. -/
theorem skipWs_nl (xs : List Nat) : skipWs (10 :: 58 :: xs) = .ok (58 :: xs) := rfl

/-! Behaviour of one record-loop iteration on each record type. -/

/-- Processing an encoded Data record merges the record offset into the low
16 bits of the running address and produces exactly the vendor instruction,
continuing at the next line marker. -/
theorem lineStep_data (A off : Nat) (p : List Nat) (ts : List Nat)
    (hp : ∀ b ∈ p, b < 256) (hoff : off < 65536) (hL : p.length ≤ 255) :
    lineStep A (hexEnc (genRec 0 off p) ++ 10 :: 58 :: ts)
      = .ok (.cont (A &&& 4294901760 ||| off)
              (some (dataInstr (A &&& 4294901760 ||| off) ⟨off, p⟩))
              (58 :: ts)) := by
  have hbytes := genRec_bytes_lt 0 off p (by omega) hoff hL hp
  have hlen : (genRec 0 off p).length ≤ 272 := by rw [genRec_length]; omega
  have hdec := decodeHex_line (genRec 0 off p) 10 (58 :: ts) hbytes hlen (by rfl)
  simp only [lineStep, hdec]
  simp only [linePad_getD0, linePad_getD1, linePad_getD2, linePad_getD3,
    linePad_genRec_checksum, check_sum_genRec, linePad_drop4, addr_decode]
  simp only [ne_eq, not_true_eq_false, if_false, ite_false, reduceIte]
  rw [List.take_append_of_le_length (by omega)]
  rfl

/-- Fifth buffer byte (first payload byte) of a stored record. -/
theorem linePad_getD4 (ty off b4 b5 : Nat) (rest : List Nat) :
    (linePad (genRec ty off (b4 :: b5 :: rest))).getD 4 0 = b4 := by
  rw [linePad_genRec]
  rfl

/-- Sixth buffer byte (second payload byte) of a stored record. -/
theorem linePad_getD5 (ty off b4 b5 : Nat) (rest : List Nat) :
    (linePad (genRec ty off (b4 :: b5 :: rest))).getD 5 0 = b5 := by
  rw [linePad_genRec]
  rfl

/-- Processing an encoded EndOfFile record terminates the loop successfully,
whatever the running address (the tail after the line is not even read). -/
theorem lineStep_eof (A t : Nat) (ts : List Nat) (ht : validHexChar t = false) :
    lineStep A (hexEnc eofBytes ++ t :: ts) = .ok .eof := by
  have hdec := decodeHex_line eofBytes t ts (by decide) (by decide) ht
  simp only [eofBytes] at hdec
  simp only [lineStep, eofBytes, hdec, linePad_getD0, linePad_getD3,
    linePad_genRec_checksum, check_sum_genRec]
  simp only [ne_eq, not_true_eq_false, reduceIte]

/-- Processing an encoded ExtendedLinearAddress record replaces the whole
running address by its two payload bytes shifted into the high 16 bits. -/
theorem lineStep_ela (A b4 b5 : Nat) (ts : List Nat) (h4 : b4 < 256) (h5 : b5 < 256) :
    lineStep A (hexEnc (genRec 4 0 [b4, b5]) ++ 10 :: 58 :: ts)
      = .ok (.cont (b4 <<< 24 ||| b5 <<< 16) none (58 :: ts)) := by
  have hbytes := genRec_bytes_lt 4 0 [b4, b5] (by omega) (by omega) (by simp)
    (by intro b hb; simp at hb; rcases hb with rfl | rfl <;> omega)
  have hlen : (genRec 4 0 [b4, b5]).length ≤ 272 := by rw [genRec_length]; simp
  have hdec := decodeHex_line (genRec 4 0 [b4, b5]) 10 (58 :: ts) hbytes hlen (by rfl)
  simp only [lineStep, hdec, linePad_getD0, linePad_getD3, linePad_getD4, linePad_getD5,
    linePad_genRec_checksum, check_sum_genRec]
  simp only [ne_eq, not_true_eq_false, reduceIte]
  rfl

/-- Processing an encoded StartSegmentAddress or StartLinearAddress record
aborts the parse with the unsupported-record failure, whatever the running
address and the record content. -/
theorem lineStep_unsupported (A ty off : Nat) (p : List Nat) (t : Nat) (ts : List Nat)
    (hty : ty = 3 ∨ ty = 5) (hp : ∀ b ∈ p, b < 256) (hoff : off < 65536)
    (hL : p.length ≤ 255) (ht : validHexChar t = false) :
    lineStep A (hexEnc (genRec ty off p) ++ t :: ts) = .error .unsupportedRecordType := by
  rcases hty with rfl | rfl
  · have hbytes := genRec_bytes_lt 3 off p (by omega) hoff hL hp
    have hlen : (genRec 3 off p).length ≤ 272 := by rw [genRec_length]; omega
    have hdec := decodeHex_line (genRec 3 off p) t ts hbytes hlen ht
    simp only [lineStep, hdec, linePad_getD0, linePad_getD3,
      linePad_genRec_checksum, check_sum_genRec]
    simp only [ne_eq, not_true_eq_false, reduceIte]
  · have hbytes := genRec_bytes_lt 5 off p (by omega) hoff hL hp
    have hlen : (genRec 5 off p).length ≤ 272 := by rw [genRec_length]; omega
    have hdec := decodeHex_line (genRec 5 off p) t ts hbytes hlen ht
    simp only [lineStep, hdec, linePad_getD0, linePad_getD3,
      linePad_genRec_checksum, check_sum_genRec]
    simp only [ne_eq, not_true_eq_false, reduceIte]

/-- Processing a record whose type byte is outside 0..5 aborts the parse
with the unknown-record failure. -/
theorem lineStep_unknown (A ty off : Nat) (p : List Nat) (t : Nat) (ts : List Nat)
    (hty6 : 6 ≤ ty) (hty : ty < 256) (hp : ∀ b ∈ p, b < 256) (hoff : off < 65536)
    (hL : p.length ≤ 255) (ht : validHexChar t = false) :
    lineStep A (hexEnc (genRec ty off p) ++ t :: ts) = .error .unknownRecordType := by
  obtain ⟨k, rfl⟩ : ∃ k, ty = k + 6 := ⟨ty - 6, by omega⟩
  have hbytes := genRec_bytes_lt (k + 6) off p (by omega) hoff hL hp
  have hlen : (genRec (k + 6) off p).length ≤ 272 := by rw [genRec_length]; omega
  have hdec := decodeHex_line _ t ts hbytes hlen ht
  simp only [lineStep, hdec, linePad_getD0, linePad_getD3,
    linePad_genRec_checksum, check_sum_genRec]
  simp only [ne_eq, not_true_eq_false, reduceIte]

/-- A decoded line whose stored checksum byte disagrees with the computed
checksum aborts the iteration with the checksum-mismatch failure, whatever
the record type. -/
theorem lineStep_mismatch (A : Nat) (input bin : List Nat) (o : Nat) (rest : List Nat)
    (hdec : decodeHex (List.replicate 272 0) 0 input = .ok (bin, o, rest))
    (hne : bin.getD (4 + bin.getD 0 0) 0 ≠ check_sum bin (4 + bin.getD 0 0)) :
    lineStep A input = .error .checksumMismatch := by
  simp only [lineStep, hdec]
  simp only [ne_eq, hne, not_false_eq_true, reduceIte]

/-! Unfolding and fuel accounting for the record loop. -/

/-- Exhausted input: the loop-condition read is past the end of the buffer. -/
theorem parseLoopF_nil (f A : Nat) (acc : List (List Nat)) :
    parseLoopF f A acc [] = .error .outOfBounds := by
  cases f <;> rfl

/-- A position that holds no line marker exits the loop with the
invalid-format failure, discarding the accumulator. -/
theorem parseLoopF_not58 (f A c : Nat) (acc : List (List Nat)) (rest : List Nat)
    (hc : c ≠ 58) : parseLoopF (f + 1) A acc (c :: rest) = .error .invalidFormat := by
  simp [parseLoopF, hc]

/-- A failing line iteration propagates its failure out of the loop. -/
theorem parseLoopF_line_err (f A : Nat) (acc : List (List Nat)) (rest : List Nat)
    (e : ParseError) (h : lineStep A rest = .error e) :
    parseLoopF (f + 1) A acc (58 :: rest) = .error e := by
  simp [parseLoopF, h]

/-- An EndOfFile iteration returns the accumulated instructions. -/
theorem parseLoopF_line_eof (f A : Nat) (acc : List (List Nat)) (rest : List Nat)
    (h : lineStep A rest = .ok .eof) :
    parseLoopF (f + 1) A acc (58 :: rest) = .ok acc := by
  simp [parseLoopF, h]

/-- A continuing iteration appends its instruction and loops. -/
theorem parseLoopF_line_cont (f A : Nat) (acc : List (List Nat)) (rest : List Nat)
    (a : Nat) (i : Option (List Nat)) (r : List Nat)
    (h : lineStep A rest = .ok (.cont a i r)) :
    parseLoopF (f + 1) A acc (58 :: rest) = parseLoopF f a (acc ++ i.toList) r := by
  simp [parseLoopF, h]

/-- A continuing line iteration hands back a suffix of its input. -/
theorem lineStep_rest_le (A : Nat) (l : List Nat) (a : Nat) (i : Option (List Nat))
    (r : List Nat) (h : lineStep A l = .ok (.cont a i r)) : r.length ≤ l.length := by
  unfold lineStep at h
  cases hdec : decodeHex (List.replicate 272 0) 0 l with
  | error e => rw [hdec] at h; simp at h
  | ok res =>
    obtain ⟨bin, o, rest⟩ := res
    rw [hdec] at h
    have hrest := decodeHex_rest_le _ _ _ _ _ _ hdec
    simp only at h
    split at h
    · simp at h
    · rcases h3 : bin.getD 3 0 with _ | _ | _ | _ | _ | _ | n
      all_goals rw [h3] at h
      · cases hskip : skipWs rest with
        | error e => rw [hskip] at h; simp at h
        | ok r2 =>
          rw [hskip] at h
          simp only [Except.ok.injEq, StepOut.cont.injEq] at h
          obtain ⟨-, -, rfl⟩ := h
          exact Nat.le_trans (skipWs_rest_le _ _ hskip) hrest
      · simp at h
      · cases hskip : skipWs rest with
        | error e => rw [hskip] at h; simp at h
        | ok r2 =>
          rw [hskip] at h
          simp only [Except.ok.injEq, StepOut.cont.injEq] at h
          obtain ⟨-, -, rfl⟩ := h
          exact Nat.le_trans (skipWs_rest_le _ _ hskip) hrest
      · simp at h
      · cases hskip : skipWs rest with
        | error e => rw [hskip] at h; simp at h
        | ok r2 =>
          rw [hskip] at h
          simp only [Except.ok.injEq, StepOut.cont.injEq] at h
          obtain ⟨-, -, rfl⟩ := h
          exact Nat.le_trans (skipWs_rest_le _ _ hskip) hrest
      · simp at h
      · simp at h

/-- The fuel is irrelevant as long as it covers the input length: each
iteration consumes at least the line marker. -/
theorem parseLoopF_fuel : ∀ (f g A : Nat) (acc : List (List Nat)) (l : List Nat),
    l.length ≤ f → l.length ≤ g → parseLoopF f A acc l = parseLoopF g A acc l := by
  intro f
  induction f with
  | zero =>
    intro g A acc l hf hg
    match l, hf with
    | [], _ => rw [parseLoopF_nil, parseLoopF_nil]
  | succ f ih =>
    intro g A acc l hf hg
    match l with
    | [] => rw [parseLoopF_nil, parseLoopF_nil]
    | c :: rest =>
      match g, hg with
      | g + 1, hg =>
        by_cases hc : c = 58
        · subst hc
          cases hstep : lineStep A rest with
          | error e => rw [parseLoopF_line_err _ _ _ _ _ hstep, parseLoopF_line_err _ _ _ _ _ hstep]
          | ok s =>
            cases s with
            | eof => rw [parseLoopF_line_eof _ _ _ _ hstep, parseLoopF_line_eof _ _ _ _ hstep]
            | cont a i r =>
              rw [parseLoopF_line_cont _ _ _ _ _ _ _ hstep,
                  parseLoopF_line_cont _ _ _ _ _ _ _ hstep]
              have hr := lineStep_rest_le _ _ _ _ _ hstep
              simp only [List.length_cons] at hf hg
              exact ih g a (acc ++ i.toList) r (by omega) (by omega)
        · rw [parseLoopF_not58 _ _ _ _ _ hc, parseLoopF_not58 _ _ _ _ _ hc]

/-- The accumulator is a pure prefix of the final instruction list. -/
theorem parseLoopF_map : ∀ (f A : Nat) (acc : List (List Nat)) (l : List Nat),
    parseLoopF f A acc l = (parseLoopF f A [] l).map (acc ++ ·) := by
  intro f
  induction f with
  | zero => intro A acc l; rfl
  | succ f ih =>
    intro A acc l
    match l with
    | [] => rw [parseLoopF_nil, parseLoopF_nil]; rfl
    | c :: rest =>
      by_cases hc : c = 58
      · subst hc
        cases hstep : lineStep A rest with
        | error e =>
          rw [parseLoopF_line_err _ _ _ _ _ hstep, parseLoopF_line_err _ _ _ _ _ hstep]
          rfl
        | ok s =>
          cases s with
          | eof =>
            rw [parseLoopF_line_eof _ _ _ _ hstep, parseLoopF_line_eof _ _ _ _ hstep]
            simp [Except.map]
          | cont a i r =>
            rw [parseLoopF_line_cont _ _ _ _ _ _ _ hstep,
                parseLoopF_line_cont _ _ _ _ _ _ _ hstep]
            rw [ih a (acc ++ i.toList) r, ih a ([] ++ i.toList) r]
            cases parseLoopF f a [] r <;> simp [Except.map]
      · rw [parseLoopF_not58 _ _ _ _ _ hc, parseLoopF_not58 _ _ _ _ _ hc]
        rfl

/-- Unfolding of the encoded stream at a leading record. -/
theorem encInput_cons (r : DataRec) (rs : List DataRec) :
    encInput (r :: rs) = 58 :: (hexEnc (recBytes r) ++ 10 :: encInput rs) := by
  simp [encInput, encodeLine, List.append_assoc]

/-- Every encoded stream opens with the line marker. -/
theorem encInput_head (rs : List DataRec) : ∃ tail, encInput rs = 58 :: tail := by
  cases rs with
  | nil => exact ⟨_, rfl⟩
  | cons r rs => exact ⟨_, encInput_cons r rs⟩

/-- Parsing the encoding of well-formed Data records followed by an
EndOfFile line yields exactly the instruction list of those records, from
any running address. -/
theorem parse_encInput : ∀ (recs : List DataRec) (A : Nat),
    (∀ r ∈ recs, WFrec r) →
    parseLoopF (encInput recs).length A [] (encInput recs) = .ok (runInstrs A recs) := by
  intro recs
  induction recs with
  | nil =>
    intro A _
    have h0 : encInput [] = 58 :: (hexEnc eofBytes ++ 10 :: []) := by
      simp [encInput, encodeLine]
    rw [h0]
    simp only [List.length_cons]
    rw [parseLoopF_line_eof _ _ _ _ (lineStep_eof A 10 [] (by rfl))]
    rfl
  | cons r rs ih =>
    intro A hwf
    obtain ⟨hoff, hL, hp⟩ : WFrec r := hwf r (by simp)
    obtain ⟨tail, htail⟩ := encInput_head rs
    rw [encInput_cons, htail]
    simp only [List.length_cons, recBytes]
    have hstep := lineStep_data A r.off r.payload tail hp hoff hL
    rw [parseLoopF_line_cont _ _ _ _ _ _ _ hstep]
    rw [parseLoopF_map]
    have hfuel := parseLoopF_fuel (hexEnc (genRec 0 r.off r.payload) ++ 10 :: 58 :: tail).length
      (58 :: tail).length (A &&& 4294901760 ||| r.off) [] (58 :: tail)
      (by simp; omega) (by simp)
    rw [hfuel, ← htail, ih _ (fun x hx => hwf x (by simp [hx]))]
    simp only [Except.map, runInstrs, effAddr]
    rfl

/-- Top-level corollary of parse_encInput for parseFirmware. -/
theorem parseFirmware_encInput (recs : List DataRec) (hwf : ∀ r ∈ recs, WFrec r) :
    parseFirmware (encInput recs) = .ok (runInstrs 0 recs) :=
  parse_encInput recs 0 hwf

/-- One instruction is produced per Data record. -/
theorem runInstrs_length : ∀ (A : Nat) (recs : List DataRec),
    (runInstrs A recs).length = recs.length := by
  intro A recs
  induction recs generalizing A with
  | nil => rfl
  | cons r rs ih => simp [runInstrs, ih]

/-- A successful run of the record loop always goes through an EndOfFile
record: success is reachable only via the EndOfFile branch. -/
theorem parseLoopF_ok_eof : ∀ (f A : Nat) (acc res : List (List Nat)) (l : List Nat),
    parseLoopF f A acc l = .ok res → EofReachable A l := by
  intro f
  induction f with
  | zero =>
    intro A acc res l h
    rw [show parseLoopF 0 A acc l = .error .outOfBounds from rfl] at h
    simp at h
  | succ f ih =>
    intro A acc res l h
    match l with
    | [] => rw [parseLoopF_nil] at h; simp at h
    | c :: rest =>
      by_cases hc : c = 58
      · subst hc
        cases hstep : lineStep A rest with
        | error e => rw [parseLoopF_line_err _ _ _ _ _ hstep] at h; simp at h
        | ok s =>
          cases s with
          | eof => exact .here hstep
          | cont a i r =>
            rw [parseLoopF_line_cont _ _ _ _ _ _ _ hstep] at h
            exact .there hstep (ih _ _ _ _ h)
      · rw [parseLoopF_not58 _ _ _ _ _ hc] at h; simp at h

/-- Auxiliary strong-induction form: the hex-pair loop never triggers the
buffer-overflow marker when the line decodes to at most 272 bytes. -/
theorem decodeHex_no_overflow_aux : ∀ (n : Nat) (l : List Nat), l.length ≤ n →
    ∀ bin off, off + hexPairs l ≤ 272 → decodeHex bin off l ≠ .error .bufferOverflow := by
  intro n
  induction n with
  | zero =>
    intro l hl bin off hoff
    match l, hl with
    | [], _ => simp [decodeHex]
  | succ n ih =>
    intro l hl bin off hoff
    match l with
    | [] => simp [decodeHex]
    | [c] =>
      unfold decodeHex
      by_cases hc : validHexChar c
      · have hin : off < 272 := by simp [hexPairs, hc] at hoff; omega
        simp [hc, hin]
      · simp [hc]
    | c :: c2 :: rest2 =>
      unfold decodeHex
      by_cases hc : validHexChar c
      · simp [hexPairs, hc] at hoff
        have hin : off < 272 := by omega
        simp only [hc, if_true, hin]
        exact ih rest2 (by simp at hl; omega) _ _ (by omega)
      · simp [hc]

/-! Settled claims. -/

/-- C1: an input image of N well-formed Data records (valid checksums,
record type 0) followed by an EndOfFile record parses successfully to
exactly the instruction list of those records — one instruction per Data
record, in file order, hence exactly N of them; the accumulated list is
returned even when it is empty (N = 0), and every successful run of the
record loop goes through an EndOfFile record, so EndOfFile is the only
successful exit path. -/
theorem claim_C1 (recs : List DataRec) (hwf : ∀ r ∈ recs, WFrec r) :
    parseFirmware (encInput recs) = .ok (runInstrs 0 recs) ∧
    (runInstrs 0 recs).length = recs.length ∧
    parseFirmware (encInput []) = .ok [] ∧
    (∀ f A acc res l, parseLoopF f A acc l = .ok res → EofReachable A l) := by
  refine ⟨parseFirmware_encInput recs hwf, runInstrs_length 0 recs, ?_, ?_⟩
  · exact parseFirmware_encInput [] (by simp)
  · intro f A acc res l h
    exact parseLoopF_ok_eof f A acc res l h

/-- Witness for C1 at one concrete Data record. -/
theorem claim_C1_witness :
    (∀ r ∈ [DataRec.mk 256 [170]], WFrec r) ∧
    parseFirmware (encInput [DataRec.mk 256 [170]])
      = .ok (runInstrs 0 [DataRec.mk 256 [170]]) ∧
    (runInstrs 0 [DataRec.mk 256 [170]]).length = 1 :=
  ⟨by decide, (claim_C1 [DataRec.mk 256 [170]] (by decide)).1,
    (claim_C1 [DataRec.mk 256 [170]] (by decide)).2.1⟩

/-- C2 (amended): for a Data record with payload length L the appended
instruction is the opcode bytes 0x4c 0xfc, the wrapped length byte
(L + 4) % 256, the 4 little-endian bytes of the merged address, then the
payload bytes the append actually transfers, namely the first
(L + 4) % 256 - 4 of them; when L ≤ 251 the length byte is exactly L + 4
and the payload is transferred whole.  For L ≥ 252 the UInt8 length byte
wraps below 4 and the appendBytes count underflows, so the claim's
unwrapped form fails (see the counterexample). -/
theorem claim_C2_amended (A off : Nat) (p : List Nat) (ts : List Nat)
    (hp : ∀ b ∈ p, b < 256) (hoff : off < 65536) (hL : p.length ≤ 255) :
    lineStep A (hexEnc (genRec 0 off p) ++ 10 :: 58 :: ts)
      = .ok (.cont (A &&& 4294901760 ||| off)
          (some (76 :: 252 :: (p.length + 4) % 256 ::
            (addrLE4 (A &&& 4294901760 ||| off) ++ p.take ((p.length + 4) % 256 - 4))))
          (58 :: ts)) ∧
    (p.length ≤ 251 →
      76 :: 252 :: (p.length + 4) % 256 ::
          (addrLE4 (A &&& 4294901760 ||| off) ++ p.take ((p.length + 4) % 256 - 4))
        = 76 :: 252 :: (p.length + 4) :: (addrLE4 (A &&& 4294901760 ||| off) ++ p)) := by
  constructor
  · have h := lineStep_data A off p ts hp hoff hL
    simpa [dataInstr] using h
  · intro h251
    rw [show (p.length + 4) % 256 = p.length + 4 by omega]
    simp

/-- Witness for C2 at one concrete Data record with a short payload. -/
theorem claim_C2_witness :
    (∀ b ∈ [170], b < 256) ∧ (22136 < 65536) ∧
    lineStep 305397760 (hexEnc (genRec 0 22136 [170]) ++ 10 :: 58 :: [])
      = .ok (.cont (305397760 &&& 4294901760 ||| 22136)
          (some (76 :: 252 :: 5 ::
            (addrLE4 (305397760 &&& 4294901760 ||| 22136) ++ [170]))) (58 :: [])) := by
  refine ⟨by decide, by decide, ?_⟩
  have h := claim_C2_amended 305397760 22136 [170] [] (by decide) (by decide) (by decide)
  rw [h.1]
  rw [show ((170 : Nat) :: []).length = 1 from rfl] at h ⊢
  rw [h.2 (by decide)]

set_option maxRecDepth 8192 in
/-- Counterexample to C2 as stated: a valid Data record with payload
length 252 (252 zero bytes, offset 0, correct checksum) parses to an
instruction whose length byte is (252 + 4) % 256 = 0, not 256, and whose
payload bytes are missing entirely — not the flat sequence the claim
promises. -/
theorem claim_C2_counterexample :
    parseFirmware (encInput [DataRec.mk 0 (List.replicate 252 0)])
      = .ok [[76, 252, 0, 0, 0, 0, 0]] ∧
    [76, 252, 0, 0, 0, 0, 0]
      ≠ 76 :: 252 :: (252 + 4) :: (addrLE4 0 ++ List.replicate 252 0) := by
  constructor
  · rw [parseFirmware_encInput [DataRec.mk 0 (List.replicate 252 0)] (by decide)]
    simp only [Except.ok.injEq]
    decide
  · decide

/-- The two's-complement checksum in the spec's 8-bit form. -/
theorem check_sum_eq (data : List Nat) (len : Nat) :
    check_sum data len = (256 - (data.take len).sum % 256) % 256 := by
  simp only [check_sum]
  omega

/-- Variant of linePad_split for a record carrying an arbitrary trailing
byte in place of the valid checksum. -/
theorem linePad_split_raw (ty off c : Nat) (p : List Nat) :
    linePad (recBody ty off p ++ [c])
      = recBody ty off p ++ c :: List.replicate (272 - (p.length + 5)) 0 := by
  have hlen : (recBody ty off p ++ [c]).length = p.length + 5 := by
    simp only [recBody, List.length_append, List.length_cons, List.length_nil]
  rw [linePad, hlen, List.append_assoc]
  rfl

/-- Stored length byte of a raw record line. -/
theorem linePad_raw_getD0 (ty off c : Nat) (p : List Nat) :
    (linePad (recBody ty off p ++ [c])).getD 0 0 = p.length := by
  rw [linePad_split_raw, recBody]
  rfl

/-- Stored trailing byte of a raw record line. -/
theorem linePad_raw_checksum (ty off c : Nat) (p : List Nat) :
    (linePad (recBody ty off p ++ [c])).getD (4 + p.length) 0 = c := by
  rw [linePad_split_raw]
  rw [List.getD_append_right _ _ _ _
    (by simp only [recBody, List.length_cons]; omega)]
  simp only [recBody, List.length_cons]
  rw [show 4 + p.length - (p.length + 1 + 1 + 1 + 1) = 0 by omega]
  rfl

/-- Computed checksum of a raw record line depends only on the body. -/
theorem check_sum_raw (ty off c : Nat) (p : List Nat) :
    check_sum (linePad (recBody ty off p ++ [c])) (4 + p.length)
      = chkByte (recBody ty off p) := by
  have htake : (linePad (recBody ty off p ++ [c])).take (4 + p.length) = recBody ty off p := by
    have hlen : (recBody ty off p).length = 4 + p.length := by
      simp only [recBody, List.length_cons]
      omega
    rw [linePad_split_raw, ← hlen, List.take_left]
  simp only [check_sum, chkByte, htake]
  omega

/-- C3: whenever the record loop parses a line whose embedded checksum byte
(at offset 4 + length) differs from the two's complement of the
8-bit-truncated sum of the bytes in [0, 4 + length), the whole parse aborts
with the checksum-mismatch failure — whatever the running address and the
instructions accumulated so far; in particular, a well-formed Data line
with one payload byte complemented (so its stored checksum no longer
matches) makes the parse fail that way with no instructions. -/
theorem claim_C3 :
    (∀ (A : Nat) (input bin : List Nat) (o : Nat) (rest : List Nat) (f : Nat)
        (acc : List (List Nat)),
      decodeHex (List.replicate 272 0) 0 input = .ok (bin, o, rest) →
      bin.getD (4 + bin.getD 0 0) 0
        ≠ (256 - (bin.take (4 + bin.getD 0 0)).sum % 256) % 256 →
      parseLoopF (f + 1) A acc (58 :: input) = .error .checksumMismatch) ∧
    (∀ (off b : Nat) (pre post : List Nat),
      off < 65536 → b < 256 → (∀ x ∈ pre, x < 256) → (∀ x ∈ post, x < 256) →
      (pre ++ b :: post).length ≤ 255 →
      parseFirmware (encodeLine (recBody 0 off (pre ++ (255 - b) :: post)
          ++ [chkByte (recBody 0 off (pre ++ b :: post))]))
        = .error .checksumMismatch) := by
  constructor
  · intro A input bin o rest f acc hdec hne
    rw [← check_sum_eq] at hne
    exact parseLoopF_line_err _ _ _ _ _ (lineStep_mismatch A input bin o rest hdec hne)
  · intro off b pre post hoff hb hpre hpost hlen
    have hbytes : ∀ x ∈ recBody 0 off (pre ++ (255 - b) :: post)
        ++ [chkByte (recBody 0 off (pre ++ b :: post))], x < 256 := by
      intro x hx
      simp only [recBody, List.mem_append, List.mem_cons, List.mem_singleton,
        List.not_mem_nil, or_false] at hx
      rcases hx with hx | hx
      · rcases hx with hx | hx | hx | hx | hx
        · subst hx; simp only [List.length_append, List.length_cons] at hlen ⊢; omega
        · omega
        · omega
        · omega
        · rcases hx with hx | hx | hx
          · exact hpre x hx
          · omega
          · exact hpost x hx
      · rw [hx]
        unfold chkByte
        omega
    have hlen272 : (recBody 0 off (pre ++ (255 - b) :: post)
        ++ [chkByte (recBody 0 off (pre ++ b :: post))]).length ≤ 272 := by
      simp only [recBody, List.length_append, List.length_cons, List.length_nil] at hlen ⊢
      omega
    have hplen : (pre ++ (255 - b) :: post).length = (pre ++ b :: post).length := by
      simp
    have hdec := decodeHex_line _ 10 []
      hbytes hlen272 (by rfl)
    show parseLoopF _ 0 [] _ = _
    rw [show encodeLine (recBody 0 off (pre ++ (255 - b) :: post)
          ++ [chkByte (recBody 0 off (pre ++ b :: post))])
        = 58 :: (hexEnc (recBody 0 off (pre ++ (255 - b) :: post)
            ++ [chkByte (recBody 0 off (pre ++ b :: post))]) ++ 10 :: []) from rfl]
    simp only [List.length_cons]
    apply parseLoopF_line_err
    apply lineStep_mismatch _ _ _ _ _ hdec
    rw [linePad_raw_getD0, linePad_raw_checksum, check_sum_raw]
    unfold chkByte recBody
    simp only [List.sum_cons, List.sum_append, List.length_append, List.length_cons]
    omega

set_option maxRecDepth 8192 in
/-- Witness for C3: a concrete EndOfFile line with its checksum byte
altered to 0xFE fails the whole parse, and the one-record stream whose
single payload byte 0xAA has been complemented fails it too. -/
theorem claim_C3_witness :
    (decodeHex (List.replicate 272 0) 0 (hexEnc [0, 0, 0, 1, 254] ++ [10])
        = .ok (linePad [0, 0, 0, 1, 254], 5, [10])) ∧
    parseLoopF 1 0 [] (58 :: (hexEnc [0, 0, 0, 1, 254] ++ [10]))
      = .error .checksumMismatch ∧
    parseFirmware (encodeLine (recBody 0 0 ([] ++ (255 - 170) :: [])
        ++ [chkByte (recBody 0 0 ([] ++ 170 :: []))]))
      = .error .checksumMismatch := by
  have hdec : decodeHex (List.replicate 272 0) 0 (hexEnc [0, 0, 0, 1, 254] ++ [10])
      = .ok (linePad [0, 0, 0, 1, 254], 5, [10]) := by rfl
  refine ⟨hdec, ?_, ?_⟩
  · exact claim_C3.1 0 _ _ _ _ 0 [] hdec (by decide)
  · exact claim_C3.2 0 170 [] [] (by decide) (by decide) (by decide) (by decide) (by decide)

/-- C4: every Data record continues with running address
(AddressState &&& 0xFFFF0000) ||| recordOffset — the high 16 bits of the
running address kept, the low 16 bits replaced by the record offset — and
that merged value is the address of the emitted instruction; an
ExtendedLinearAddress record sets the running address to
byte4 <<< 24 ||| byte5 <<< 16; and the concrete stream
ExtendedLinearAddress(0x1234) then Data(offset 0x5678, payload [0xAA])
then EndOfFile yields one instruction whose address is 0x12345678
(= 305419896), encoded little-endian. -/
theorem claim_C4 :
    (∀ (A off : Nat) (p ts : List Nat), (∀ b ∈ p, b < 256) → off < 65536 →
      p.length ≤ 255 →
      lineStep A (hexEnc (genRec 0 off p) ++ 10 :: 58 :: ts)
        = .ok (.cont (A &&& 4294901760 ||| off)
            (some (dataInstr (A &&& 4294901760 ||| off) ⟨off, p⟩)) (58 :: ts))) ∧
    (∀ (A b4 b5 : Nat) (ts : List Nat), b4 < 256 → b5 < 256 →
      lineStep A (hexEnc (genRec 4 0 [b4, b5]) ++ 10 :: 58 :: ts)
        = .ok (.cont (b4 <<< 24 ||| b5 <<< 16) none (58 :: ts))) ∧
    parseFirmware (encodeLine (genRec 4 0 [18, 52]) ++ encInput [DataRec.mk 22136 [170]])
      = .ok [76 :: 252 :: 5 :: (addrLE4 305419896 ++ [170])] := by
  refine ⟨fun A off p ts hp hoff hL => lineStep_data A off p ts hp hoff hL,
          fun A b4 b5 ts h4 h5 => lineStep_ela A b4 b5 ts h4 h5, ?_⟩
  rfl

/-- Witness for C4 at a concrete Data record and a concrete
ExtendedLinearAddress record. -/
theorem claim_C4_witness :
    (∀ b ∈ [170], (b : Nat) < 256) ∧
    lineStep 4660 (hexEnc (genRec 0 30 [170]) ++ 10 :: 58 :: [])
      = .ok (.cont (4660 &&& 4294901760 ||| 30)
          (some (dataInstr (4660 &&& 4294901760 ||| 30) ⟨30, [170]⟩)) (58 :: [])) ∧
    lineStep 99 (hexEnc (genRec 4 0 [18, 52]) ++ 10 :: 58 :: [])
      = .ok (.cont (18 <<< 24 ||| 52 <<< 16) none (58 :: [])) :=
  ⟨by decide, (claim_C4.1 4660 30 [170] [] (by decide) (by decide) (by decide)),
    claim_C4.2.1 99 18 52 [] (by decide) (by decide)⟩

/-- C5: a firmware buffer of length at least 2 whose leading two bytes,
read as a 16-bit little-endian value, are none of the three zlib magics
0x0178, 0x9c78, 0xda78 is passed through decompression byte-identical
(the C code returns a second reference to the very same OSData), whatever
the inflating routine would do. -/
theorem claim_C5 (inflate : List Nat → Option (List Nat)) (fw : List Nat)
    (hlen : 2 ≤ fw.length)
    (h1 : fw.getD 0 0 ||| (fw.getD 1 0) <<< 8 ≠ 376)
    (h2 : fw.getD 0 0 ||| (fw.getD 1 0) <<< 8 ≠ 40056)
    (h3 : fw.getD 0 0 ||| (fw.getD 1 0) <<< 8 ≠ 55928) :
    decompressFirmware inflate fw = some fw := by
  simp only [decompressFirmware]
  rw [if_pos]
  exact ⟨h1, h2, h3⟩

/-- Witness for C5 on a two-byte buffer of zeros (magic 0x0000). -/
theorem claim_C5_witness :
    2 ≤ ([0, 0] : List Nat).length ∧
    decompressFirmware (fun _ => none) [0, 0] = some [0, 0] :=
  ⟨by decide, claim_C5 (fun _ => none) [0, 0] (by decide) (by decide) (by decide) (by decide)⟩

/-- C6 (amended): when the record loop stops at an in-bounds position whose
byte is not the line marker ′:′, the parse fails with the invalid-format
error and no instruction list is returned, whatever was accumulated; but
when the input is exhausted before an EndOfFile record, the C code simply
reads past the end of the buffer — there is no length check — so the parse
ends in the modelled out-of-bounds failure, not InvalidFormat. -/
theorem claim_C6_amended :
    (∀ (f A c : Nat) (acc : List (List Nat)) (rest : List Nat), c ≠ 58 →
      parseLoopF (f + 1) A acc (c :: rest) = .error .invalidFormat) ∧
    (∀ (f A : Nat) (acc : List (List Nat)),
      parseLoopF f A acc [] = .error .outOfBounds) :=
  ⟨fun f A c acc rest hc => parseLoopF_not58 f A c acc rest hc,
   fun f A acc => parseLoopF_nil f A acc⟩

/-- Witness for C6: a loop position holding the byte ′A′ fails with
InvalidFormat, and an exhausted input gives the out-of-bounds marker. -/
theorem claim_C6_witness :
    (65 : Nat) ≠ 58 ∧
    parseLoopF 1 0 [] [65] = .error .invalidFormat ∧
    parseLoopF 7 0 [] [] = .error .outOfBounds :=
  ⟨by decide, claim_C6_amended.1 0 0 65 [] [] (by decide), claim_C6_amended.2 7 0 []⟩

/-- Counterexample to C6 as stated: the input ":0000000000\n" — one valid
Data record and then end of input, no EndOfFile record — does not fail with
InvalidFormat; the code walks off the end of the buffer (out-of-bounds
read), which the embedding reports as the distinguished failure. -/
theorem claim_C6_counterexample :
    parseFirmware [58, 48, 48, 48, 48, 48, 48, 48, 48, 48, 48, 10]
      = .error .outOfBounds ∧
    parseFirmware [58, 48, 48, 48, 48, 48, 48, 48, 48, 48, 48, 10]
      ≠ .error .invalidFormat := by
  constructor
  · rfl
  · rw [show parseFirmware [58, 48, 48, 48, 48, 48, 48, 48, 48, 48, 48, 10]
        = .error .outOfBounds from rfl]
    simp

/-- C7 (amended): parseFirmware requires the very first byte of the image
to be the line marker ′:′ — leading whitespace is not skipped; any other
first byte, whitespace included, fails immediately with InvalidFormat, and
when the first byte is ′:′ the first record is parsed (the parse proceeds
into the record-loop body). -/
theorem claim_C7_amended :
    (∀ (c : Nat) (rest : List Nat), c ≠ 58 →
      parseFirmware (c :: rest) = .error .invalidFormat) ∧
    (∀ rest : List Nat,
      parseFirmware (58 :: rest)
        = match lineStep 0 rest with
          | .error e => .error e
          | .ok .eof => .ok []
          | .ok (.cont a i r) => parseLoopF rest.length a i.toList r) := by
  constructor
  · intro c rest hc
    exact parseLoopF_not58 rest.length 0 c [] rest hc
  · intro rest
    show parseLoopF (rest.length + 1) 0 [] (58 :: rest) = _
    cases hstep : lineStep 0 rest with
    | error e => rw [parseLoopF_line_err _ _ _ _ _ hstep]
    | ok s =>
      cases s with
      | eof => rw [parseLoopF_line_eof _ _ _ _ hstep]
      | cont a i r =>
        rw [parseLoopF_line_cont _ _ _ _ _ _ _ hstep]
        simp

/-- Witness for C7: a first byte ′A′ fails with InvalidFormat; a leading
′:′ on the EndOfFile line parses through the first record. -/
theorem claim_C7_witness :
    (65 : Nat) ≠ 58 ∧
    parseFirmware (65 :: encodeLine eofBytes) = .error .invalidFormat :=
  ⟨by decide, claim_C7_amended.1 65 (encodeLine eofBytes) (by decide)⟩

/-- Counterexample to C7 as stated: prefixing the valid single-line image
":00000001FF\n" with one space gives an input whose first non-whitespace
byte is ′:′, yet the parse fails with InvalidFormat instead of proceeding;
without the space the same image parses to the empty instruction list. -/
theorem claim_C7_counterexample :
    parseFirmware (32 :: encodeLine eofBytes) = .error .invalidFormat ∧
    parseFirmware (encodeLine eofBytes) = .ok [] := by
  constructor
  · rfl
  · rfl

/-- C8: a line with record type 3 (StartSegmentAddress) or 5
(StartLinearAddress), even otherwise well formed with a correct checksum,
makes the record loop fail with UnsupportedRecordType regardless of its
position in the stream (any running address, any accumulated instructions,
any remaining fuel); a record type 6 or above fails with
UnknownRecordType in the same way. -/
theorem claim_C8 :
    (∀ (A ty off : Nat) (p : List Nat) (t : Nat) (ts : List Nat) (f : Nat)
        (acc : List (List Nat)),
      (ty = 3 ∨ ty = 5) → (∀ b ∈ p, b < 256) → off < 65536 → p.length ≤ 255 →
      validHexChar t = false →
      lineStep A (hexEnc (genRec ty off p) ++ t :: ts) = .error .unsupportedRecordType ∧
      parseLoopF (f + 1) A acc (58 :: (hexEnc (genRec ty off p) ++ t :: ts))
        = .error .unsupportedRecordType) ∧
    (∀ (A ty off : Nat) (p : List Nat) (t : Nat) (ts : List Nat) (f : Nat)
        (acc : List (List Nat)),
      6 ≤ ty → ty < 256 → (∀ b ∈ p, b < 256) → off < 65536 → p.length ≤ 255 →
      validHexChar t = false →
      lineStep A (hexEnc (genRec ty off p) ++ t :: ts) = .error .unknownRecordType ∧
      parseLoopF (f + 1) A acc (58 :: (hexEnc (genRec ty off p) ++ t :: ts))
        = .error .unknownRecordType) := by
  constructor
  · intro A ty off p t ts f acc hty hp hoff hL ht
    have h := lineStep_unsupported A ty off p t ts hty hp hoff hL ht
    exact ⟨h, parseLoopF_line_err _ _ _ _ _ h⟩
  · intro A ty off p t ts f acc hty6 hty hp hoff hL ht
    have h := lineStep_unknown A ty off p t ts hty6 hty hp hoff hL ht
    exact ⟨h, parseLoopF_line_err _ _ _ _ _ h⟩

/-- Witness for C8 at concrete type-3 and type-6 lines inside a stream. -/
theorem claim_C8_witness :
    ((3 : Nat) = 3 ∨ (3 : Nat) = 5) ∧
    (lineStep 7 (hexEnc (genRec 3 0 []) ++ 10 :: []) = .error .unsupportedRecordType ∧
      parseLoopF 4 7 [[1]] (58 :: (hexEnc (genRec 3 0 []) ++ 10 :: []))
        = .error .unsupportedRecordType) ∧
    (lineStep 7 (hexEnc (genRec 6 0 []) ++ 10 :: []) = .error .unknownRecordType ∧
      parseLoopF 4 7 [[1]] (58 :: (hexEnc (genRec 6 0 []) ++ 10 :: []))
        = .error .unknownRecordType) :=
  ⟨Or.inl rfl,
   claim_C8.1 7 3 0 [] 10 [] 3 [[1]] (Or.inl rfl) (by decide) (by decide) (by decide) (by decide),
   claim_C8.2 7 6 0 [] 10 [] 3 [[1]] (by decide) (by decide) (by decide) (by decide) (by decide)
     (by decide)⟩

/-- C9: the classic two-line image
":10010000214601360121470136007EFE09D2190140\n:00000001FF\n" parses to
exactly one instruction: opcode 0x4c 0xfc, length byte 0x14 = 0x10 + 4,
the little-endian bytes of address 0x00000100 (addrLE4 256 = [0, 1, 0, 0]),
then the 16 payload bytes of the Data record; the Data line's checksum
validates against its trailing 0x40. -/
theorem claim_C9 :
    parseFirmware [58, 49, 48, 48, 49, 48, 48, 48, 48, 50, 49, 52, 54, 48, 49, 51, 54,
        48, 49, 50, 49, 52, 55, 48, 49, 51, 54, 48, 48, 55, 69, 70, 69, 48, 57, 68,
        50, 49, 57, 48, 49, 52, 48, 10,
        58, 48, 48, 48, 48, 48, 48, 48, 49, 70, 70, 10]
      = .ok [76 :: 252 :: 20 ::
          (addrLE4 256 ++ [33, 70, 1, 54, 1, 33, 71, 1, 54, 0, 126, 254, 9, 210, 25, 1])] := by
  rfl

set_option maxRecDepth 8192 in
/-- C10: whenever a hex line decodes to at most 0x110 = 272 bytes, every
write of the hex-pair decoding loop lands inside the fixed 0x110-byte line
buffer (the modelled overflow marker is never produced); the loop itself
performs no capacity check, so the bound is tight: a line of 546 hex digits
(273 pairs) drives the write offset to 272 and overflows the buffer. -/
theorem claim_C10 :
    (∀ (l bin : List Nat) (off : Nat), off + hexPairs l ≤ 272 →
      decodeHex bin off l ≠ .error .bufferOverflow) ∧
    decodeHex (List.replicate 272 0) 0 (List.replicate 546 48)
      = .error .bufferOverflow := by
  constructor
  · intro l bin off h
    exact decodeHex_no_overflow_aux l.length l (Nat.le_refl _) bin off h
  · rfl

/-- Witness for C10 on a two-digit line (one decoded byte). -/
theorem claim_C10_witness :
    0 + hexPairs [48, 48] ≤ 272 ∧
    decodeHex (List.replicate 272 0) 0 [48, 48] ≠ .error .bufferOverflow :=
  ⟨by decide, claim_C10.1 [48, 48] (List.replicate 272 0) 0 (by decide)⟩
